import Mathlib

/-!
Shallow embedding of the `atomicstore` Go package (`atomicstore.go`, `batch.go`).

Keys are Go `interface{}` values; the exported `Insert`/`InsertUnique` restrict
them to strings, while the batch executor and `Remove` accept any key.  We model
the dynamically typed keys and values by small inductive types, Go's `k.(string)`
type assertion by an `Option`-valued coercion (`none` models the panic), the
`sync.Map` by an association list, the `atomiccounter.Counter` by a natural
number reduced modulo 2^64, and the user-registered callbacks by an event trace:
each operation returns the list of callback invocations it performed.
Concurrent executions are modelled by their sequential serializations.
-/

namespace AtomicStore

/-- A Go `interface{}` key: either a string or some non-string comparable
value (modelled by an integer). -/
inductive GoKey where
  | str : String → GoKey
  | int : Int → GoKey
deriving DecidableEq, Repr

/-- A Go `interface{}` value stored in the map (`nil` is the zero value,
used for the unset `value` field of a remove job). -/
inductive GoVal where
  | str : String → GoVal
  | int : Int → GoVal
  | nil : GoVal
deriving DecidableEq, Repr

/-- Go's `key.(string)` type assertion: `none` models the runtime panic on a
non-string key. -/
def assertString : GoKey → Option String
  | GoKey.str s => some s
  | GoKey.int _ => none

/-- The `options` struct passed to the internal `insert`/`remove`. -/
structure options where
  unique : Bool
  runCallbacks : Bool
deriving DecidableEq, Repr

/-- One callback invocation.  `onInsert`/`onUpdate`/`onRemove` are the single
operation callbacks (their key argument is the result of `key.(string)`);
`onBatch…` the batch-level ones; `broadcast` is a `cond.Broadcast()` change
notification. -/
inductive Event where
  | onInsert : String → GoVal → Event
  | onUpdate : String → GoVal → Event
  | onRemove : String → GoVal → Event
  | onBatchInsert : List (GoKey × GoVal) → Event
  | onBatchUpdate : List (GoKey × GoVal) → Event
  | onBatchRemove : List (GoKey × GoVal) → Event
  | broadcast : Event
deriving DecidableEq, Repr

/-- The `KV` map type, as an association list in insertion order. -/
abbrev KV := List (GoKey × GoVal)

/-- Lookup in the mapping (`sync.Map.Load`). -/
def kvLookup : KV → GoKey → Option GoVal
  | [], _ => none
  | p :: ps, k => if p.1 = k then some p.2 else kvLookup ps k

/-- `sync.Map.Store`: overwrite the entry for `k` if present, else append. -/
def kvStore : KV → GoKey → GoVal → KV
  | [], k, v => [(k, v)]
  | p :: ps, k, v => if p.1 = k then (k, v) :: ps else p :: kvStore ps k v

/-- `sync.Map.Delete`. -/
def kvDelete : KV → GoKey → KV
  | [], _ => []
  | p :: ps, k => if p.1 = k then kvDelete ps k else p :: kvDelete ps k

/-- Boolean key membership in a `KV`. -/
def kvHasKey : KV → GoKey → Bool
  | [], _ => false
  | p :: ps, k => if p.1 = k then true else kvHasKey ps k

/-- 2^64, the modulus of the `uint64` counter. -/
def U64 : Nat := 2 ^ 64

/-- `atomiccounter.Counter.Inc` (wrapping `uint64` addition). -/
def incCount (c : Nat) : Nat := (c + 1) % U64

/-- `atomiccounter.Counter.Dec` (wrapping `uint64` subtraction of 1). -/
def decCount (c : Nat) : Nat := (c + (U64 - 1)) % U64

/-- The `Store` struct: the embedded `sync.Map` contents, the counter value,
and whether a `sync.Cond` is present (`lockable`). -/
structure Store where
  lockable : Bool
  data : KV
  count : Nat
deriving DecidableEq, Repr

/-- `New(lockable)`. -/
def New (lockable : Bool) : Store :=
  { lockable := lockable, data := [], count := 0 }

/-- `Store.Len`. -/
def Store.Len (s : Store) : Nat := s.count

/-- `Store.Load` / `Store.Get`: non-mutating lookup. -/
def Store.Get (s : Store) (key : GoKey) : Option GoVal :=
  kvLookup s.data key

/-- The internal `insert`.  Returns `(resp, loaded, newStore, events)`;
`none` models the panic of the `key.(string)` assertion evaluated when a
callback fires on a non-string key. -/
def Store.insert (s : Store) (key : GoKey) (val : GoVal) (o : options) :
    Option (GoVal × Bool × Store × List Event) :=
  if o.unique then
    -- LoadOrStore: unique values only get inserted if they don't already exist.
    match kvLookup s.data key with
    | some resp => some (resp, true, s, [])
    | none =>
      let s1 : Store := { s with data := kvStore s.data key val, count := incCount s.count }
      if o.runCallbacks then
        match assertString key with
        | some ks => some (val, false, s1, [Event.onInsert ks val])
        | none => none
      else
        some (val, false, s1, [])
  else
    let loaded := (s.Get key).isSome
    let s1 : Store := { s with data := kvStore s.data key val }
    if loaded then
      if o.runCallbacks then
        match assertString key with
        | some ks => some (val, true, s1, [Event.onUpdate ks val])
        | none => none
      else
        some (val, true, s1, [])
    else
      let s2 : Store := { s1 with count := incCount s1.count }
      if o.runCallbacks then
        match assertString key with
        | some ks => some (val, false, s2, [Event.onInsert ks val])
        | none => none
      else
        some (val, false, s2, [])

/-- `Store.Insert`: creates a new entry or overwrites the existing. -/
def Store.Insert (s : Store) (key : String) (val : GoVal) :
    Option (GoVal × Bool × Store × List Event) :=
  s.insert (GoKey.str key) val { unique := false, runCallbacks := true }

/-- `Store.InsertUnique`: creates a new entry if the key doesn't exist. -/
def Store.InsertUnique (s : Store) (key : String) (val : GoVal) :
    Option (GoVal × Bool × Store × List Event) :=
  s.insert (GoKey.str key) val { unique := true, runCallbacks := true }

/-- The internal `remove`.  Returns `(resp, success, newStore, events)`. -/
def Store.remove (s : Store) (key : GoKey) (o : options) :
    Option (Option GoVal × Bool × Store × List Event) :=
  match s.Get key with
  | some resp =>
    let s1 : Store := { s with count := decCount s.count, data := kvDelete s.data key }
    if o.runCallbacks then
      match assertString key with
      | some ks => some (some resp, true, s1, [Event.onRemove ks resp])
      | none => none
    else
      some (some resp, true, s1, [])
  | none => some (none, false, s, [])

/-- `Store.Remove`: deletes a key from the store. -/
def Store.Remove (s : Store) (key : GoKey) : Option (Bool × Store × List Event) :=
  match s.remove key { unique := false, runCallbacks := true } with
  | some (_, success, s1, evs) => some (success, s1, evs)
  | none => none

/-- The `Range` loop of `GetKeyMap`: collect `k.(string)` for every entry. -/
def keyMapLoop : KV → Option (List String)
  | [] => some []
  | p :: ps =>
    match assertString p.1 with
    | none => none
    | some kstr =>
      match keyMapLoop ps with
      | none => none
      | some rest => some (kstr :: rest)

/-- `Store.GetKeyMap`: the set of keys, each passed through `k.(string)`. -/
def Store.GetKeyMap (s : Store) : Option (List String) :=
  keyMapLoop s.data

/-- `Store.NotifyDidChange`. -/
def Store.NotifyDidChange (s : Store) : List Event :=
  if s.lockable then [Event.broadcast] else []

/-- The `Range` loop of `Flush`: `s.Remove(k.(string))` for each key of the
snapshot. -/
def flushLoop : Store → List GoKey → Option (Store × List Event)
  | s, [] => some (s, [])
  | s, k :: ks =>
    match assertString k with
    | none => none
    | some kstr =>
      match s.Remove (GoKey.str kstr) with
      | none => none
      | some (_, s1, evs) =>
        match flushLoop s1 ks with
        | none => none
        | some (s2, evs2) => some (s2, evs ++ evs2)

/-- `Store.Flush`: clears the store, then broadcasts if lockable. -/
def Store.Flush (s : Store) : Option (Store × List Event) :=
  match flushLoop s (s.data.map Prod.fst) with
  | none => none
  | some (s1, evs) =>
    some (s1, evs ++ (if s.lockable then [Event.broadcast] else []))

/-! ## Batch executor (`batch.go`) -/

/-- The `opp` tag of a batch job. -/
inductive opp where
  | insert | insertUnique | remove
deriving DecidableEq, Repr

/-- A queued batch `job`.  A remove job leaves `value` at its zero value
(`nil`). -/
structure Job where
  method : opp
  key : GoKey
  value : GoVal
deriving DecidableEq, Repr

/-- `batch.Insert`: the job queued for a plain insert. -/
def batchInsertJob (key : GoKey) (val : GoVal) : Job :=
  { method := opp.insert, key := key, value := val }

/-- `batch.InsertUnique`: the job queued for a unique insert. -/
def batchInsertUniqueJob (key : GoKey) (val : GoVal) : Job :=
  { method := opp.insertUnique, key := key, value := val }

/-- `batch.Remove`: the job queued for a removal. -/
def batchRemoveJob (key : GoKey) : Job :=
  { method := opp.remove, key := key, value := GoVal.nil }

/-- The mutable state of a `batch`: the bound store and the three aggregate
result sets. -/
structure BatchState where
  store : Store
  created : KV
  updated : KV
  deleted : KV
deriving DecidableEq, Repr

/-- `Store.Batch`: a fresh batch bound to `s` with empty result sets. -/
def Store.Batch (s : Store) : BatchState :=
  { store := s, created := [], updated := [], deleted := [] }

/-- `batch.do`: run one job through the store's callback-suppressed mutation
path and classify its outcome. -/
def batchDo (b : BatchState) (j : Job) : Option BatchState :=
  match j.method with
  | opp.insert | opp.insertUnique =>
    let unique := j.method == opp.insertUnique
    match b.store.insert j.key j.value { unique := unique, runCallbacks := false } with
    | none => none
    | some (doc, loaded, s1, _) =>
      if !loaded then
        some { b with store := s1, created := kvStore b.created j.key doc }
      else if !unique then
        some { b with store := s1, updated := kvStore b.updated j.key doc }
      else
        some { b with store := s1 }
  | opp.remove =>
    match b.store.remove j.key { unique := false, runCallbacks := false } with
    | none => none
    | some (doc, success, s1, _) =>
      if success then
        some { b with store := s1, deleted := kvStore b.deleted j.key (doc.getD GoVal.nil) }
      else
        some { b with store := s1 }

/-- The job loop of `batch.Execute`, serialised in queue order (the goroutines
run concurrently; this is one admissible serialization). -/
def batchRun : BatchState → List Job → Option BatchState
  | b, [] => some b
  | b, j :: js =>
    match batchDo b j with
    | none => none
    | some b1 => batchRun b1 js

/-- `batch.Execute` on a queued job list: run every job, then fire each
non-empty batch callback once. -/
def batchExecute (b : BatchState) (js : List Job) : Option (BatchState × List Event) :=
  match batchRun b js with
  | none => none
  | some b1 =>
    some (b1,
      (if b1.created.length > 0 then [Event.onBatchInsert b1.created] else []) ++
      (if b1.updated.length > 0 then [Event.onBatchUpdate b1.updated] else []) ++
      (if b1.deleted.length > 0 then [Event.onBatchRemove b1.deleted] else []))

/-! ## Single-threaded operation sequences -/

/-- One exported mutation of a single-threaded client (string keys, as the
exported `Insert`/`InsertUnique` require). -/
inductive Op where
  | insert : String → GoVal → Op
  | insertUnique : String → GoVal → Op
  | remove : String → Op
  | flush : Op
deriving DecidableEq, Repr

/-- Apply one exported operation, keeping only the resulting store. -/
def applyOp (s : Store) : Op → Option Store
  | Op.insert k v => (s.Insert k v).map (fun r => r.2.2.1)
  | Op.insertUnique k v => (s.InsertUnique k v).map (fun r => r.2.2.1)
  | Op.remove k => (s.Remove (GoKey.str k)).map (fun r => r.2.1)
  | Op.flush => s.Flush.map Prod.fst

/-- Run a sequence of exported operations. -/
def runOps : Store → List Op → Option Store
  | s, [] => some s
  | s, op :: ops =>
    match applyOp s op with
    | none => none
    | some s1 => runOps s1 ops

/-- The store states reachable by single-threaded use: unique keys, all keys
strings, counter equal to the size modulo 2^64. -/
def WF (s : Store) : Prop :=
  (s.data.map Prod.fst).Nodup ∧
  (∀ x ∈ s.data.map Prod.fst, (assertString x).isSome = true) ∧
  s.count = s.data.length % U64

instance (s : Store) : Decidable (WF s) := by
  unfold WF; infer_instance

/-! ## Lemmas about the map primitives and the counter -/

theorem kvLookup_eq_none_iff (kv : KV) (k : GoKey) :
    kvLookup kv k = none ↔ ∀ p ∈ kv, p.1 ≠ k := by
  induction kv with
  | nil => simp [kvLookup]
  | cons p ps ih =>
    by_cases h : p.1 = k
    · simp [kvLookup, h]
    · simp [kvLookup, h, ih]

theorem kvLookup_isSome_iff (kv : KV) (k : GoKey) :
    (kvLookup kv k).isSome = true ↔ k ∈ kv.map Prod.fst := by
  induction kv with
  | nil => simp [kvLookup]
  | cons p ps ih =>
    by_cases h : p.1 = k
    · simp [kvLookup, h]
    · simp [kvLookup, h, ih, Ne.symm h]

theorem kvLookup_kvStore_self (kv : KV) (k : GoKey) (v : GoVal) :
    kvLookup (kvStore kv k v) k = some v := by
  induction kv with
  | nil => simp [kvStore, kvLookup]
  | cons p ps ih =>
    by_cases h : p.1 = k
    · simp [kvStore, h, kvLookup]
    · simp [kvStore, h, kvLookup, ih]

theorem kvStore_keys_of_present (kv : KV) (k : GoKey) (v w : GoVal)
    (h : kvLookup kv k = some w) :
    (kvStore kv k v).map Prod.fst = kv.map Prod.fst := by
  induction kv with
  | nil => simp [kvLookup] at h
  | cons p ps ih =>
    by_cases hp : p.1 = k
    · simp [kvStore, hp]
    · simp [kvLookup, hp] at h
      simp [kvStore, hp, ih h]

theorem kvStore_of_absent (kv : KV) (k : GoKey) (v : GoVal)
    (h : kvLookup kv k = none) :
    kvStore kv k v = kv ++ [(k, v)] := by
  induction kv with
  | nil => simp [kvStore]
  | cons p ps ih =>
    by_cases hp : p.1 = k
    · simp [kvLookup, hp] at h
    · simp [kvLookup, hp] at h
      simp [kvStore, hp, ih h]

theorem kvDelete_sublist (kv : KV) (k : GoKey) : (kvDelete kv k).Sublist kv := by
  induction kv with
  | nil => simp [kvDelete]
  | cons p ps ih =>
    by_cases hp : p.1 = k
    · simp only [kvDelete, hp, if_pos]
      exact ih.cons p
    · simp only [kvDelete, hp, if_neg, not_false_iff]
      exact ih.cons₂ p

theorem kvLookup_kvDelete_self (kv : KV) (k : GoKey) :
    kvLookup (kvDelete kv k) k = none := by
  induction kv with
  | nil => simp [kvDelete, kvLookup]
  | cons p ps ih =>
    by_cases hp : p.1 = k
    · simp [kvDelete, hp, ih]
    · simp [kvDelete, kvLookup, hp, ih]

theorem kvDelete_of_absent (kv : KV) (k : GoKey)
    (h : ∀ p ∈ kv, p.1 ≠ k) : kvDelete kv k = kv := by
  induction kv with
  | nil => simp [kvDelete]
  | cons p ps ih =>
    have hp : p.1 ≠ k := h p (by simp)
    simp only [kvDelete, hp, if_neg, not_false_iff]
    rw [ih (fun q hq => h q (by simp [hq]))]

theorem kvDelete_length_of_present (kv : KV) (k : GoKey) (w : GoVal)
    (hnd : (kv.map Prod.fst).Nodup) (h : kvLookup kv k = some w) :
    (kvDelete kv k).length + 1 = kv.length := by
  induction kv with
  | nil => simp [kvLookup] at h
  | cons p ps ih =>
    by_cases hp : p.1 = k
    · have habs : ∀ q ∈ ps, q.1 ≠ k := by
        intro q hq
        have := (List.nodup_cons.mp hnd).1
        intro hqk
        exact this (hp ▸ hqk ▸ List.mem_map_of_mem Prod.fst hq)
      simp [kvDelete, hp, kvDelete_of_absent ps k habs]
    · simp [kvLookup, hp] at h
      have := ih (List.nodup_cons.mp hnd).2 h
      simp [kvDelete, hp]
      omega

theorem kvHasKey_iff_mem (kv : KV) (k : GoKey) :
    kvHasKey kv k = true ↔ k ∈ kv.map Prod.fst := by
  induction kv with
  | nil => simp [kvHasKey]
  | cons p ps ih =>
    by_cases hp : p.1 = k
    · simp [kvHasKey, hp]
    · simp [kvHasKey, hp, ih, Ne.symm hp]

theorem kvHasKey_kvStore (kv : KV) (k k1 : GoKey) (v : GoVal) :
    kvHasKey (kvStore kv k v) k1 = true ↔ (kvHasKey kv k1 = true ∨ k1 = k) := by
  induction kv with
  | nil =>
    by_cases hk : k = k1
    · subst hk; simp [kvStore, kvHasKey]
    · simp [kvStore, kvHasKey, hk, Ne.symm hk]
  | cons p ps ih =>
    by_cases hp : p.1 = k
    · subst hp
      by_cases hk1 : p.1 = k1
      · simp [kvStore, kvHasKey, hk1]
      · simp [kvStore, kvHasKey, hk1, Ne.symm hk1]
    · have hstep : kvStore (p :: ps) k v = p :: kvStore ps k v := by
        simp [kvStore, hp]
      rw [hstep]
      by_cases hpk1 : p.1 = k1
      · simp [kvHasKey, hpk1]
      · simp [kvHasKey, hpk1, ih]

theorem incCount_mod (n : Nat) : incCount (n % U64) = (n + 1) % U64 := by
  simp [incCount, Nat.mod_add_mod]

theorem decCount_mod (n : Nat) (h : 1 ≤ n) : decCount (n % U64) = (n - 1) % U64 := by
  have hU : 1 ≤ U64 := by norm_num [U64]
  calc decCount (n % U64) = (n % U64 + (U64 - 1)) % U64 := rfl
    _ = (n + (U64 - 1)) % U64 := by rw [Nat.mod_add_mod]
    _ = ((n - 1) + U64) % U64 := by congr 1; omega
    _ = (n - 1) % U64 := by rw [Nat.add_mod_right]

/-! ## Characterization of the store operations -/

theorem Insert_present (s : Store) (k : String) (v w : GoVal)
    (h : s.Get (GoKey.str k) = some w) :
    s.Insert k v =
      some (v, true, { s with data := kvStore s.data (GoKey.str k) v },
        [Event.onUpdate k v]) := by
  simp [Store.Insert, Store.insert, h, assertString]

theorem Insert_absent (s : Store) (k : String) (v : GoVal)
    (h : s.Get (GoKey.str k) = none) :
    s.Insert k v =
      some (v, false,
        { s with data := kvStore s.data (GoKey.str k) v, count := incCount s.count },
        [Event.onInsert k v]) := by
  simp [Store.Insert, Store.insert, h, assertString]

theorem InsertUnique_present (s : Store) (k : String) (v w : GoVal)
    (h : s.Get (GoKey.str k) = some w) :
    s.InsertUnique k v = some (w, true, s, []) := by
  have h' : kvLookup s.data (GoKey.str k) = some w := h
  simp [Store.InsertUnique, Store.insert, h']

theorem InsertUnique_absent (s : Store) (k : String) (v : GoVal)
    (h : s.Get (GoKey.str k) = none) :
    s.InsertUnique k v =
      some (v, false,
        { s with data := kvStore s.data (GoKey.str k) v, count := incCount s.count },
        [Event.onInsert k v]) := by
  have h' : kvLookup s.data (GoKey.str k) = none := h
  simp [Store.InsertUnique, Store.insert, h', assertString]

theorem Remove_present (s : Store) (k : String) (w : GoVal)
    (h : s.Get (GoKey.str k) = some w) :
    s.Remove (GoKey.str k) =
      some (true,
        { s with count := decCount s.count, data := kvDelete s.data (GoKey.str k) },
        [Event.onRemove k w]) := by
  simp [Store.Remove, Store.remove, h, assertString]

theorem Remove_absent (s : Store) (key : GoKey)
    (h : s.Get key = none) :
    s.Remove key = some (false, s, []) := by
  simp [Store.Remove, Store.remove, h]

theorem insert_noCallbacks_isSome (s : Store) (key : GoKey) (val : GoVal) (u : Bool) :
    (s.insert key val { unique := u, runCallbacks := false }).isSome = true := by
  cases u <;> simp only [Store.insert] <;> split <;> simp_all
  · split <;> simp
  · split <;> simp

theorem remove_noCallbacks_isSome (s : Store) (key : GoKey) (u : Bool) :
    (s.remove key { unique := u, runCallbacks := false }).isSome = true := by
  simp only [Store.remove]
  split <;> simp

/-! ## The flush loop on reachable stores -/

theorem flushLoop_run (kvs : KV) : ∀ s : Store,
    s.data = kvs →
    (kvs.map Prod.fst).Nodup →
    (∀ x ∈ kvs.map Prod.fst, (assertString x).isSome = true) →
    s.count = kvs.length % U64 →
    flushLoop s (kvs.map Prod.fst) =
      some ({ lockable := s.lockable, data := [], count := 0 },
        kvs.map (fun p => Event.onRemove ((assertString p.1).getD "") p.2)) := by
  induction kvs with
  | nil =>
    intro s hdata hnd hstr hcount
    cases s with
    | mk lk dt ct =>
      simp only [List.length_nil, Nat.zero_mod] at hcount
      simp only at hdata
      subst hdata
      subst hcount
      simp [flushLoop]
  | cons p rest ih =>
    obtain ⟨k, v⟩ := p
    intro s hdata hnd hstr hcount
    have hks : (assertString k).isSome = true := hstr k (by simp)
    obtain ⟨kstr, hk⟩ := Option.isSome_iff_exists.mp hks
    have hkeq : k = GoKey.str kstr := by
      cases k with
      | str s0 => simpa [assertString] using hk
      | int n => simp [assertString] at hk
    subst hkeq
    have hnd' : GoKey.str kstr ∉ rest.map Prod.fst ∧ (rest.map Prod.fst).Nodup := by
      constructor
      · exact (List.nodup_cons.mp (by simpa using hnd)).1
      · exact (List.nodup_cons.mp (by simpa using hnd)).2
    have hnotin : ∀ q ∈ rest, q.1 ≠ GoKey.str kstr := by
      intro q hq hqeq
      exact hnd'.1 (hqeq ▸ List.mem_map_of_mem Prod.fst hq)
    have hGet : s.Get (GoKey.str kstr) = some v := by
      simp [Store.Get, hdata, kvLookup]
    have hRem := Remove_present s kstr v hGet
    have hdel : kvDelete s.data (GoKey.str kstr) = rest := by
      rw [hdata]
      simp only [kvDelete, if_pos]
      exact kvDelete_of_absent rest _ hnotin
    rw [hdel] at hRem
    have hcnt : { s with count := decCount s.count, data := rest }.count
        = rest.length % U64 := by
      simp only [hcount, List.length_cons]
      simpa using decCount_mod (rest.length + 1) (by omega)
    have hih := ih { s with count := decCount s.count, data := rest } rfl hnd'.2
      (fun x hx => hstr x (by simp [hx])) hcnt
    simp only [List.map_cons]
    simp [flushLoop, assertString, hRem, hih, hk]

/-! ## Preservation of reachability under the exported operations -/

theorem not_mem_keys_of_lookup_none (kv : KV) (k : GoKey) (h : kvLookup kv k = none) :
    k ∉ kv.map Prod.fst := by
  intro hmem
  have := (kvLookup_isSome_iff kv k).mpr hmem
  simp [h] at this

theorem WF_New (b : Bool) : WF (New b) :=
  ⟨by simp [New], by simp [New], by simp [New]⟩

theorem pos_len_of_lookup_some (kv : KV) (k : GoKey) (w : GoVal)
    (h : kvLookup kv k = some w) : 1 ≤ kv.length := by
  cases kv with
  | nil => simp [kvLookup] at h
  | cons p ps => simp

theorem applyOp_wf (s : Store) (op : Op) (h : WF s) :
    ∃ s1, applyOp s op = some s1 ∧ WF s1 ∧ s1.data.length ≤ s.data.length + 1 := by
  obtain ⟨hnd, hstr, hcount⟩ := h
  cases op with
  | insert k v =>
    cases hGet : s.Get (GoKey.str k) with
    | none =>
      have hd : kvStore s.data (GoKey.str k) v = s.data ++ [(GoKey.str k, v)] :=
        kvStore_of_absent s.data (GoKey.str k) v hGet
      have hnotmem := not_mem_keys_of_lookup_none s.data (GoKey.str k) hGet
      refine ⟨{ s with data := kvStore s.data (GoKey.str k) v, count := incCount s.count },
        by simp [applyOp, Insert_absent s k v hGet], ⟨?_, ?_, ?_⟩, ?_⟩
      · simp only [hd, List.map_append, List.map_cons, List.map_nil]
        simp [List.nodup_append, hnd, hnotmem]
      · intro x hx
        simp only [hd, List.map_append, List.map_cons, List.map_nil, List.mem_append,
          List.mem_singleton] at hx
        cases hx with
        | inl hx => exact hstr x hx
        | inr hx => simp [hx, assertString]
      · simp only [hd, List.length_append, List.length_singleton, hcount]
        exact incCount_mod s.data.length
      · simp [hd]
    | some w =>
      have hkeys := kvStore_keys_of_present s.data (GoKey.str k) v w hGet
      have hlen : (kvStore s.data (GoKey.str k) v).length = s.data.length := by
        have := congrArg List.length hkeys
        simpa using this
      refine ⟨{ s with data := kvStore s.data (GoKey.str k) v },
        by simp [applyOp, Insert_present s k v w hGet], ⟨?_, ?_, ?_⟩, ?_⟩
      · simpa [hkeys] using hnd
      · simpa [hkeys] using hstr
      · simpa [hlen] using hcount
      · simp [hlen]
  | insertUnique k v =>
    cases hGet : s.Get (GoKey.str k) with
    | none =>
      have hd : kvStore s.data (GoKey.str k) v = s.data ++ [(GoKey.str k, v)] :=
        kvStore_of_absent s.data (GoKey.str k) v hGet
      have hnotmem := not_mem_keys_of_lookup_none s.data (GoKey.str k) hGet
      refine ⟨{ s with data := kvStore s.data (GoKey.str k) v, count := incCount s.count },
        by simp [applyOp, InsertUnique_absent s k v hGet], ⟨?_, ?_, ?_⟩, ?_⟩
      · simp only [hd, List.map_append, List.map_cons, List.map_nil]
        simp [List.nodup_append, hnd, hnotmem]
      · intro x hx
        simp only [hd, List.map_append, List.map_cons, List.map_nil, List.mem_append,
          List.mem_singleton] at hx
        cases hx with
        | inl hx => exact hstr x hx
        | inr hx => simp [hx, assertString]
      · simp only [hd, List.length_append, List.length_singleton, hcount]
        exact incCount_mod s.data.length
      · simp [hd]
    | some w =>
      exact ⟨s, by simp [applyOp, InsertUnique_present s k v w hGet], ⟨hnd, hstr, hcount⟩,
        by omega⟩
  | remove k =>
    cases hGet : s.Get (GoKey.str k) with
    | none =>
      exact ⟨s, by simp [applyOp, Remove_absent s (GoKey.str k) hGet], ⟨hnd, hstr, hcount⟩,
        by omega⟩
    | some w =>
      have hsub : (kvDelete s.data (GoKey.str k)).Sublist s.data :=
        kvDelete_sublist s.data (GoKey.str k)
      have hpos : 1 ≤ s.data.length := pos_len_of_lookup_some s.data (GoKey.str k) w hGet
      have hlen : (kvDelete s.data (GoKey.str k)).length + 1 = s.data.length :=
        kvDelete_length_of_present s.data (GoKey.str k) w hnd hGet
      refine ⟨{ s with count := decCount s.count, data := kvDelete s.data (GoKey.str k) },
        by simp [applyOp, Remove_present s k w hGet], ⟨?_, ?_, ?_⟩, ?_⟩
      · exact hnd.sublist (hsub.map Prod.fst)
      · exact fun x hx => hstr x ((hsub.map Prod.fst).mem hx)
      · simp only [hcount]
        rw [decCount_mod s.data.length hpos]
        congr 1
        omega
      · show (kvDelete s.data (GoKey.str k)).length ≤ s.data.length + 1
        omega
  | flush =>
    have hF := flushLoop_run s.data s rfl hnd hstr hcount
    refine ⟨{ lockable := s.lockable, data := [], count := 0 }, ?_, ⟨by simp, by simp, by simp⟩,
      by simp⟩
    simp [applyOp, Store.Flush, hF]

theorem runOps_wf (ops : List Op) : ∀ s : Store, WF s →
    ∃ s1, runOps s ops = some s1 ∧ WF s1 ∧ s1.data.length ≤ s.data.length + ops.length := by
  induction ops with
  | nil => exact fun s h => ⟨s, rfl, h, by omega⟩
  | cons op ops ih =>
    intro s h
    obtain ⟨s1, hap, hwf1, hlen1⟩ := applyOp_wf s op h
    obtain ⟨s2, hrun, hwf2, hlen2⟩ := ih s1 hwf1
    refine ⟨s2, ?_, hwf2, by simp only [List.length_cons]; omega⟩
    simp [runOps, hap, hrun]

/-! ## Lemmas about the batch executor and the type assertions -/

theorem insert_nocb_present (s : Store) (key : GoKey) (val w : GoVal) (u : Bool)
    (h : s.Get key = some w) :
    s.insert key val { unique := u, runCallbacks := false } =
      if u then some (w, true, s, [])
      else some (val, true, { s with data := kvStore s.data key val }, []) := by
  have h' : kvLookup s.data key = some w := h
  cases u <;> simp [Store.insert, h, h']

theorem insert_nocb_absent (s : Store) (key : GoKey) (val : GoVal) (u : Bool)
    (h : s.Get key = none) :
    s.insert key val { unique := u, runCallbacks := false } =
      some (val, false,
        { s with data := kvStore s.data key val, count := incCount s.count }, []) := by
  have h' : kvLookup s.data key = none := h
  cases u <;> simp [Store.insert, h, h']

theorem remove_nocb_present (s : Store) (key : GoKey) (w : GoVal)
    (h : s.Get key = some w) :
    s.remove key { unique := false, runCallbacks := false } =
      some (some w, true,
        { s with count := decCount s.count, data := kvDelete s.data key }, []) := by
  simp [Store.remove, h]

theorem remove_nocb_absent (s : Store) (key : GoKey)
    (h : s.Get key = none) :
    s.remove key { unique := false, runCallbacks := false } = some (none, false, s, []) := by
  simp [Store.remove, h]

theorem Remove_str_isSome (s : Store) (kstr : String) :
    (s.Remove (GoKey.str kstr)).isSome = true := by
  cases hGet : s.Get (GoKey.str kstr) with
  | some w => simp [Remove_present s kstr w hGet]
  | none => simp [Remove_absent s _ hGet]

theorem Remove_isSome_of_string_keys (s : Store) (key : GoKey)
    (hstr : ∀ x ∈ s.data.map Prod.fst, (assertString x).isSome = true) :
    (s.Remove key).isSome = true := by
  cases hGet : s.Get key with
  | none => simp [Remove_absent s key hGet]
  | some w =>
    have hmem : key ∈ s.data.map Prod.fst := by
      apply (kvLookup_isSome_iff s.data key).mp
      simp [show kvLookup s.data key = some w from hGet]
    obtain ⟨kstr, hk⟩ := Option.isSome_iff_exists.mp (hstr key hmem)
    simp [Store.Remove, Store.remove, hGet, hk]

theorem keyMapLoop_isSome_of_strings (kv : KV)
    (hstr : ∀ x ∈ kv.map Prod.fst, (assertString x).isSome = true) :
    (keyMapLoop kv).isSome = true := by
  induction kv with
  | nil => simp [keyMapLoop]
  | cons p ps ih =>
    obtain ⟨kstr, hk⟩ := Option.isSome_iff_exists.mp (hstr p.1 (by simp))
    have := ih (fun x hx => hstr x (by simp [hx]))
    obtain ⟨rest, hrest⟩ := Option.isSome_iff_exists.mp this
    simp [keyMapLoop, hk, hrest]

theorem keyMapLoop_none_of_bad_key (kv : KV) (k : GoKey)
    (hmem : k ∈ kv.map Prod.fst) (hbad : assertString k = none) :
    keyMapLoop kv = none := by
  induction kv with
  | nil => simp at hmem
  | cons p ps ih =>
    simp only [List.map_cons, List.mem_cons] at hmem
    cases hmem with
    | inl hmem => simp [keyMapLoop, ← hmem, hbad]
    | inr hmem =>
      cases hp : assertString p.1 with
      | none => simp [keyMapLoop, hp]
      | some kstr => simp [keyMapLoop, hp, ih hmem]

theorem flushLoop_isSome_of_strings (ks : List GoKey) : ∀ s : Store,
    (∀ k ∈ ks, (assertString k).isSome = true) →
    (flushLoop s ks).isSome = true := by
  induction ks with
  | nil => intro s _; simp [flushLoop]
  | cons k ks ih =>
    intro s hstr
    obtain ⟨kstr, hk⟩ := Option.isSome_iff_exists.mp (hstr k (by simp))
    obtain ⟨⟨b0, s1, evs⟩, hrem⟩ :=
      Option.isSome_iff_exists.mp (Remove_str_isSome s kstr)
    have := ih s1 (fun x hx => hstr x (by simp [hx]))
    obtain ⟨⟨s2, evs2⟩, hloop⟩ := Option.isSome_iff_exists.mp this
    simp [flushLoop, hk, hrem, hloop]

theorem flushLoop_none_of_bad_key (ks : List GoKey) : ∀ s : Store, ∀ k ∈ ks,
    assertString k = none → flushLoop s ks = none := by
  induction ks with
  | nil => intro s k h; simp at h
  | cons k0 ks ih =>
    intro s k hmem hbad
    simp only [List.mem_cons] at hmem
    cases hmem with
    | inl hmem => simp [flushLoop, ← hmem, hbad]
    | inr hmem =>
      cases hk0 : assertString k0 with
      | none => simp [flushLoop, hk0]
      | some kstr =>
        obtain ⟨⟨b0, s1, evs⟩, hrem⟩ :=
          Option.isSome_iff_exists.mp (Remove_str_isSome s kstr)
        simp [flushLoop, hk0, hrem, ih s1 k hmem hbad]

theorem kvStore_mem_key (kv : KV) (k : GoKey) (v : GoVal) :
    k ∈ (kvStore kv k v).map Prod.fst := by
  apply (kvLookup_isSome_iff (kvStore kv k v) k).mp
  simp [kvLookup_kvStore_self]

/-- A single batch job touches at most one of `created`/`updated`, and only at
its own key. -/
theorem batchDo_sets (b : BatchState) (j : Job) (b1 : BatchState)
    (h : batchDo b j = some b1) :
    (b1.created = b.created ∧ b1.updated = b.updated) ∨
    ((∃ d, b1.created = kvStore b.created j.key d) ∧ b1.updated = b.updated) ∨
    (b1.created = b.created ∧ ∃ d, b1.updated = kvStore b.updated j.key d) := by
  obtain ⟨m, key, value⟩ := j
  cases m with
  | insert =>
    have hu : (opp.insert == opp.insertUnique) = false := rfl
    cases hGet : b.store.Get key with
    | none =>
      simp only [batchDo, hu, insert_nocb_absent b.store key value false hGet,
        Bool.not_false, if_true, Option.some.injEq] at h
      subst h
      exact Or.inr (Or.inl ⟨⟨value, rfl⟩, rfl⟩)
    | some w =>
      simp [batchDo, hu, insert_nocb_present b.store key value w false hGet] at h
      subst h
      exact Or.inr (Or.inr ⟨rfl, value, rfl⟩)
  | insertUnique =>
    have hu : (opp.insertUnique == opp.insertUnique) = true := rfl
    cases hGet : b.store.Get key with
    | none =>
      simp only [batchDo, hu, insert_nocb_absent b.store key value true hGet,
        Bool.not_false, if_true, Option.some.injEq] at h
      subst h
      exact Or.inr (Or.inl ⟨⟨value, rfl⟩, rfl⟩)
    | some w =>
      simp only [batchDo, hu, insert_nocb_present b.store key value w true hGet,
        if_true, Bool.not_true, Bool.false_eq_true, if_false, Option.some.injEq] at h
      subst h
      exact Or.inl ⟨rfl, rfl⟩
  | remove =>
    cases hGet : b.store.Get key with
    | none =>
      simp [batchDo, remove_nocb_absent b.store key hGet] at h
      subst h
      exact Or.inl ⟨rfl, rfl⟩
    | some w =>
      simp only [batchDo, remove_nocb_present b.store key w hGet, if_true,
        Option.some.injEq] at h
      subst h
      exact Or.inl ⟨rfl, rfl⟩

/-- Invariant carried along a batch run: `created` and `updated` stay disjoint
as long as the keys of the pending jobs are fresh for both. -/
theorem batchRun_disjoint_aux (js : List Job) : ∀ b b1 : BatchState,
    (js.map Job.key).Nodup →
    (∀ k, ¬(kvHasKey b.created k = true ∧ kvHasKey b.updated k = true)) →
    (∀ k, (kvHasKey b.created k = true ∨ kvHasKey b.updated k = true) →
      k ∉ js.map Job.key) →
    batchRun b js = some b1 →
    ∀ k, ¬(kvHasKey b1.created k = true ∧ kvHasKey b1.updated k = true) := by
  induction js with
  | nil =>
    intro b b1 _ hdisj _ hrun
    obtain rfl : b1 = b := by
      simpa [batchRun] using hrun.symm
    exact hdisj
  | cons j js ih =>
    intro b b1 hnd hdisj hfresh hrun
    simp only [batchRun] at hrun
    cases hdo : batchDo b j with
    | none => rw [hdo] at hrun; simp at hrun
    | some b2 =>
      rw [hdo] at hrun
      simp only at hrun
      have hjkey : ¬(kvHasKey b.created j.key = true ∨ kvHasKey b.updated j.key = true) := by
        intro hk
        exact (hfresh j.key hk) (by simp)
      have hnd' : (js.map Job.key).Nodup := (List.nodup_cons.mp (by simpa using hnd)).2
      have hjnotin : j.key ∉ js.map Job.key := (List.nodup_cons.mp (by simpa using hnd)).1
      rcases batchDo_sets b j b2 hdo with ⟨hc, hu⟩ | ⟨⟨d, hc⟩, hu⟩ | ⟨hc, d, hu⟩
      · exact ih b2 b1 hnd' (by simp only [hc, hu]; exact hdisj)
          (fun k hk => fun hmem => hfresh k (by simpa [hc, hu] using hk)
            (by simp [hmem])) hrun
      · refine ih b2 b1 hnd' ?_ ?_ hrun
        · intro k ⟨hkc, hku⟩
          rw [hc] at hkc
          rw [hu] at hku
          rcases (kvHasKey_kvStore b.created j.key k d).mp hkc with hold | rfl
          · exact hdisj k ⟨hold, hku⟩
          · exact hjkey (Or.inr hku)
        · intro k hk hmem
          rw [hc] at hk
          rcases hk with hkc | hku
          · rcases (kvHasKey_kvStore b.created j.key k d).mp hkc with hold | rfl
            · exact hfresh k (Or.inl hold) (by simp [hmem])
            · exact hjnotin hmem
          · rw [hu] at hku
            exact hfresh k (Or.inr hku) (by simp [hmem])
      · refine ih b2 b1 hnd' ?_ ?_ hrun
        · intro k ⟨hkc, hku⟩
          rw [hc] at hkc
          rw [hu] at hku
          rcases (kvHasKey_kvStore b.updated j.key k d).mp hku with hold | rfl
          · exact hdisj k ⟨hkc, hold⟩
          · exact hjkey (Or.inl hkc)
        · intro k hk hmem
          rw [hu] at hk
          rcases hk with hkc | hku
          · rw [hc] at hkc
            exact hfresh k (Or.inl hkc) (by simp [hmem])
          · rcases (kvHasKey_kvStore b.updated j.key k d).mp hku with hold | rfl
            · exact hfresh k (Or.inr hold) (by simp [hmem])
            · exact hjnotin hmem

/-! ## Concrete stores and inputs used by the claim theorems -/

def c1ops : List Op :=
  [Op.insert "a" (GoVal.int 1), Op.insert "b" (GoVal.int 2), Op.remove "a"]

def c1res : Store := { lockable := true, data := [(GoKey.str "b", GoVal.int 2)], count := 1 }

def c2s1 : Store := { lockable := true, data := [(GoKey.str "k", GoVal.str "v1")], count := 1 }

def c2s2 : Store := { lockable := true, data := [(GoKey.str "k", GoVal.str "v2")], count := 1 }

def c2s3 : Store := { lockable := true, data := [], count := 0 }

def c3s0 : Store := { lockable := false, data := [(GoKey.str "b", GoVal.int 0)], count := 1 }

def c3jobs : List Job :=
  [batchInsertUniqueJob (GoKey.str "a") (GoVal.int 1),
   batchInsertJob (GoKey.str "b") (GoVal.int 2),
   batchRemoveJob (GoKey.str "c")]

def c7s : Store :=
  { lockable := true,
    data := [(GoKey.str "x", GoVal.int 7), (GoKey.str "y", GoVal.nil)],
    count := 2 }

def c3final : BatchState :=
  { store :=
      { lockable := false,
        data := [(GoKey.str "b", GoVal.int 2), (GoKey.str "a", GoVal.int 1)],
        count := 2 },
    created := [(GoKey.str "a", GoVal.int 1)],
    updated := [(GoKey.str "b", GoVal.int 2)],
    deleted := [] }

/-! ## The claims -/

/-- Claim C1: for every sequence of `Insert`, `InsertUnique`, `Remove` and
`Flush` operations applied single-threaded to a store created by `New`, the
run completes without a failing type assertion and, provided the sequence is
shorter than 2^64 (the modulus of the `uint64` counter), `Len()` equals the
number of keys currently present in the mapping (the key list stays
duplicate-free, so its length is that number). -/
theorem claim_C1_len_eq_size :
    (∀ (b : Bool) (ops : List Op), (runOps (New b) ops).isSome = true) ∧
    (∀ (b : Bool) (ops : List Op) (s1 : Store), runOps (New b) ops = some s1 →
      ops.length < U64 →
      s1.Len = s1.data.length ∧ (s1.data.map Prod.fst).Nodup) := by
  constructor
  · intro b ops
    obtain ⟨s1, hrun, _, _⟩ := runOps_wf ops (New b) (WF_New b)
    simp [hrun]
  · intro b ops s1 hrun hlt
    obtain ⟨s2, hrun2, ⟨hnd, hstr, hcount⟩, hlen⟩ := runOps_wf ops (New b) (WF_New b)
    rw [hrun] at hrun2
    obtain rfl : s1 = s2 := by simpa using hrun2
    refine ⟨?_, hnd⟩
    have hsz : s1.data.length < U64 := by
      simp [New] at hlen
      omega
    show s1.count = s1.data.length
    rw [hcount, Nat.mod_eq_of_lt hsz]

/-- Witness for C1: a concrete three-operation run. -/
theorem claim_C1_len_eq_size_witness :
    (runOps (New true) c1ops).isSome = true ∧
    c1res.Len = c1res.data.length ∧ (c1res.data.map Prod.fst).Nodup :=
  ⟨claim_C1_len_eq_size.1 true c1ops,
   claim_C1_len_eq_size.2 true c1ops c1res (by decide) (by decide)⟩

/-- Claim C2: on a fresh `New(true)` store, `Insert "k" "v1"` returns
`("v1", false)`, `Insert "k" "v2"` returns `("v2", true)`, `Get "k"` returns
`("v2", true)`, `Remove "k"` returns `true`, and the final `Get "k"` finds
nothing. -/
theorem claim_C2_scenario :
    (New true).Insert "k" (GoVal.str "v1") =
      some (GoVal.str "v1", false, c2s1, [Event.onInsert "k" (GoVal.str "v1")]) ∧
    c2s1.Insert "k" (GoVal.str "v2") =
      some (GoVal.str "v2", true, c2s2, [Event.onUpdate "k" (GoVal.str "v2")]) ∧
    c2s2.Get (GoKey.str "k") = some (GoVal.str "v2") ∧
    c2s2.Remove (GoKey.str "k") =
      some (true, c2s3, [Event.onRemove "k" (GoVal.str "v2")]) ∧
    c2s3.Get (GoKey.str "k") = none := by
  decide

/-- Claim C3: on a store where `"b"` pre-exists with value 0 and `"a"`, `"c"`
are absent, the batch `InsertUnique("a",1); Insert("b",2); Remove("c")` fires
the batch-insert callback exactly once with `{"a":1}`, the batch-update
callback exactly once with `{"b":2}`, and no batch-remove callback; and in
general a batch whose run produced no effective mutation fires no callbacks. -/
theorem claim_C3_batch_scenario :
    (batchExecute c3s0.Batch c3jobs =
      some (c3final,
        [Event.onBatchInsert [(GoKey.str "a", GoVal.int 1)],
         Event.onBatchUpdate [(GoKey.str "b", GoVal.int 2)]])) ∧
    (∀ (b : BatchState) (js : List Job) (b1 : BatchState),
      batchRun b js = some b1 →
      b1.created = [] → b1.updated = [] → b1.deleted = [] →
      batchExecute b js = some (b1, [])) := by
  constructor
  · decide
  · intro b js b1 hrun hc hu hd
    simp [batchExecute, hrun, hc, hu, hd]

/-- Witness for C3: a batch whose two jobs are both no-ops (a unique insert on
a present key and a removal of an absent key) fires no callbacks. -/
theorem claim_C3_batch_scenario_witness :
    batchExecute c3s0.Batch
      [batchInsertUniqueJob (GoKey.str "b") (GoVal.int 5), batchRemoveJob (GoKey.str "c")] =
      some (c3s0.Batch, []) :=
  claim_C3_batch_scenario.2 c3s0.Batch
    [batchInsertUniqueJob (GoKey.str "b") (GoVal.int 5), batchRemoveJob (GoKey.str "c")]
    c3s0.Batch (by decide) rfl rfl rfl

/-- Claim C4: `InsertUnique` never overwrites: starting from any store where
`k` is absent, after `InsertUnique k v1` the second `InsertUnique k v2`
returns `v1` with `existedBefore = true` and changes nothing, and `Get k`
returns `v1`. -/
theorem claim_C4_insertUnique_no_overwrite (s : Store) (k : String) (v1 v2 : GoVal)
    (s1 : Store) (evs : List Event)
    (h0 : s.Get (GoKey.str k) = none)
    (h1 : s.InsertUnique k v1 = some (v1, false, s1, evs)) :
    s1.InsertUnique k v2 = some (v1, true, s1, []) ∧
    s1.Get (GoKey.str k) = some v1 := by
  rw [InsertUnique_absent s k v1 h0] at h1
  simp only [Option.some.injEq, Prod.mk.injEq, true_and] at h1
  obtain ⟨rfl, -⟩ := h1
  have hget : Store.Get
      { s with
        data := kvStore s.data (GoKey.str k) v1,
        count := incCount s.count }
      (GoKey.str k) = some v1 := by
    show kvLookup (kvStore s.data (GoKey.str k) v1) (GoKey.str k) = some v1
    exact kvLookup_kvStore_self s.data (GoKey.str k) v1
  exact ⟨InsertUnique_present _ k v2 v1 hget, hget⟩

/-- Witness for C4 on a fresh store. -/
theorem claim_C4_insertUnique_no_overwrite_witness :
    c2s1.InsertUnique "k" (GoVal.str "v2") = some (GoVal.str "v1", true, c2s1, []) ∧
    c2s1.Get (GoKey.str "k") = some (GoVal.str "v1") :=
  claim_C4_insertUnique_no_overwrite (New true) "k" (GoVal.str "v1") (GoVal.str "v2")
    c2s1 [Event.onInsert "k" (GoVal.str "v1")] (by decide) (by decide)

/-- Claim C5: `InsertUnique` on a present key is a no-op: it returns the
existing value with `existedBefore = true`, leaves the store (mapping and
count) unchanged and fires no callback; and as a batch job it leaves the
whole batch state — in particular `created` and `updated` — unchanged. -/
theorem claim_C5_insertUnique_noop :
    (∀ (s : Store) (k : String) (v w : GoVal), s.Get (GoKey.str k) = some w →
      s.InsertUnique k v = some (w, true, s, [])) ∧
    (∀ (b : BatchState) (k : GoKey) (v w : GoVal), b.store.Get k = some w →
      batchDo b (batchInsertUniqueJob k v) = some b) := by
  constructor
  · exact fun s k v w h => InsertUnique_present s k v w h
  · intro b k v w h
    simp [batchDo, batchInsertUniqueJob, insert_nocb_present b.store k v w true h]

/-- Witness for C5 at the pre-populated key `"b"` of `c3s0`. -/
theorem claim_C5_insertUnique_noop_witness :
    c3s0.InsertUnique "b" (GoVal.int 9) = some (GoVal.int 0, true, c3s0, []) ∧
    batchDo c3s0.Batch (batchInsertUniqueJob (GoKey.str "b") (GoVal.int 9)) =
      some c3s0.Batch :=
  ⟨claim_C5_insertUnique_noop.1 c3s0 "b" (GoVal.int 9) (GoVal.int 0) (by decide),
   claim_C5_insertUnique_noop.2 c3s0.Batch (GoKey.str "b") (GoVal.int 9) (GoVal.int 0)
     (by decide)⟩

/-- Claim C6: `Remove` deletes a present key, decrements the count, fires the
remove callback with the removed value and returns true (afterwards the key is
gone); on an absent key it returns false and changes nothing, firing no
callback. -/
theorem claim_C6_remove :
    (∀ (s : Store) (k : String) (w : GoVal), s.Get (GoKey.str k) = some w →
      s.Remove (GoKey.str k) =
        some (true,
          { s with count := decCount s.count, data := kvDelete s.data (GoKey.str k) },
          [Event.onRemove k w]) ∧
      Store.Get
        { s with
          count := decCount s.count,
          data := kvDelete s.data (GoKey.str k) }
        (GoKey.str k) = none) ∧
    (∀ (s : Store) (key : GoKey), s.Get key = none →
      s.Remove key = some (false, s, [])) := by
  constructor
  · intro s k w h
    refine ⟨Remove_present s k w h, ?_⟩
    show kvLookup (kvDelete s.data (GoKey.str k)) (GoKey.str k) = none
    exact kvLookup_kvDelete_self s.data (GoKey.str k)
  · exact fun s key h => Remove_absent s key h

/-- Witness for C6: removing the present key `"k"` of `c2s2` and the absent
key `"z"`. -/
theorem claim_C6_remove_witness :
    (c2s2.Remove (GoKey.str "k") =
      some (true,
        { c2s2 with
          count := decCount c2s2.count,
          data := kvDelete c2s2.data (GoKey.str "k") },
        [Event.onRemove "k" (GoVal.str "v2")])) ∧
    c2s2.Remove (GoKey.str "z") = some (false, c2s2, []) :=
  ⟨(claim_C6_remove.1 c2s2 "k" (GoVal.str "v2") (by decide)).1,
   claim_C6_remove.2 c2s2 (GoKey.str "z") (by decide)⟩

/-- Claim C7: on every reachable store, `Flush` removes every key one at a
time, firing one remove callback per key (with the removed value) exactly as
`Remove` does and draining the count to 0, then issues one change
notification at the end (the notification is the `lockable`-guarded
broadcast, a no-op on non-lockable stores); afterwards `Len() = 0` and
`GetKeyMap()` is empty. -/
theorem claim_C7_flush (s : Store) (h : WF s) :
    s.Flush = some ({ lockable := s.lockable, data := [], count := 0 },
      (s.data.map (fun p => Event.onRemove ((assertString p.1).getD "") p.2)) ++
      (if s.lockable then [Event.broadcast] else [])) ∧
    Store.Len { lockable := s.lockable, data := [], count := 0 } = 0 ∧
    Store.GetKeyMap { lockable := s.lockable, data := [], count := 0 } = some [] := by
  obtain ⟨hnd, hstr, hcount⟩ := h
  have hF := flushLoop_run s.data s rfl hnd hstr hcount
  exact ⟨by simp [Store.Flush, hF], rfl, rfl⟩

/-- Witness for C7 on a concrete two-entry lockable store. -/
theorem claim_C7_flush_witness :
    c7s.Flush =
      some ({ lockable := true, data := [], count := 0 },
        [Event.onRemove "x" (GoVal.int 7), Event.onRemove "y" GoVal.nil,
         Event.broadcast]) := by
  have h := (claim_C7_flush c7s (by decide)).1
  simpa [c7s, assertString] using h

/-! ## Claims C8 and C10 -/

def c8jobs : List Job :=
  [batchInsertJob (GoKey.str "a") (GoVal.int 1),
   batchInsertJob (GoKey.str "a") (GoVal.int 2)]

def c8res : BatchState :=
  { store := { lockable := false, data := [(GoKey.str "a", GoVal.int 2)], count := 1 },
    created := [(GoKey.str "a", GoVal.int 1)],
    updated := [(GoKey.str "a", GoVal.int 2)],
    deleted := [] }

/-- Counterexample to claim C8 as stated: a batch queuing two plain inserts on
the same key `"a"` of an empty store puts `"a"` both in `created` (observed
absent by the first job) and in `updated` (observed present by the second). -/
theorem claim_C8_counterexample :
    batchRun (New false).Batch c8jobs = some c8res ∧
    kvHasKey c8res.created (GoKey.str "a") = true ∧
    kvHasKey c8res.updated (GoKey.str "a") = true := by
  decide

/-- Claim C8 (amended): for every batch execution whose queued jobs have
pairwise distinct keys, each key is in at most one of the `created` and
`updated` result sets — each job is classified by the existence state it
itself observed, and with duplicate keys in one batch the same key can land
in both sets. -/
theorem claim_C8_amended (s : Store) (js : List Job) (b1 : BatchState)
    (hnd : (js.map Job.key).Nodup)
    (hrun : batchRun s.Batch js = some b1) :
    ∀ k, ¬(kvHasKey b1.created k = true ∧ kvHasKey b1.updated k = true) := by
  apply batchRun_disjoint_aux js s.Batch b1 hnd _ _ hrun
  · intro k hk
    obtain ⟨hc, -⟩ := hk
    simp [Store.Batch, kvHasKey] at hc
  · intro k hk
    exfalso
    rcases hk with hc | hu
    · simp [Store.Batch, kvHasKey] at hc
    · simp [Store.Batch, kvHasKey] at hu

/-- Witness for the amended C8 on the distinct-key batch of C3. -/
theorem claim_C8_amended_witness :
    ¬(kvHasKey c3final.created (GoKey.str "b") = true ∧
      kvHasKey c3final.updated (GoKey.str "b") = true) :=
  claim_C8_amended c3s0 c3jobs c3final (by decide) (by decide) (GoKey.str "b")

def c10bad : BatchState :=
  { store :=
      { lockable := false,
        data := [(GoKey.str "b", GoVal.int 0), (GoKey.int 5, GoVal.int 9)],
        count := 2 },
    created := [(GoKey.int 5, GoVal.int 9)],
    updated := [],
    deleted := [] }

/-- Claim C10: when every key present in the store is a string, the
`key.(string)` type assertions in `GetKeyMap`, `Flush` and the
remove-callback path of `Remove` always succeed; whereas after a batch job
inserts a non-string key, both `GetKeyMap` and `Flush` hit a failing
assertion on that key. -/
theorem claim_C10_type_assertions :
    (∀ s : Store, (∀ x ∈ s.data.map Prod.fst, (assertString x).isSome = true) →
      (s.GetKeyMap).isSome = true ∧ (s.Flush).isSome = true ∧
      ∀ key, (s.Remove key).isSome = true) ∧
    (∀ (s : Store) (n : Int) (v : GoVal) (b1 : BatchState),
      batchRun s.Batch [batchInsertJob (GoKey.int n) v] = some b1 →
      b1.store.GetKeyMap = none ∧ b1.store.Flush = none) := by
  constructor
  · intro s hstr
    refine ⟨keyMapLoop_isSome_of_strings s.data hstr, ?_,
      fun key => Remove_isSome_of_string_keys s key hstr⟩
    have hloop : (flushLoop s (s.data.map Prod.fst)).isSome = true :=
      flushLoop_isSome_of_strings (s.data.map Prod.fst) s (fun k hk => hstr k hk)
    obtain ⟨⟨s1, evs⟩, h1⟩ := Option.isSome_iff_exists.mp hloop
    simp [Store.Flush, h1]
  · intro s n v b1 hrun
    have hbad : assertString (GoKey.int n) = none := rfl
    have hmem : (GoKey.int n) ∈ b1.store.data.map Prod.fst := by
      cases hGet : s.Get (GoKey.int n) with
      | none =>
        simp [batchRun, batchDo, batchInsertJob, Store.Batch,
          show (opp.insert == opp.insertUnique) = false from rfl,
          insert_nocb_absent s (GoKey.int n) v false hGet] at hrun
        rw [← hrun]
        exact kvStore_mem_key s.data (GoKey.int n) v
      | some w =>
        simp [batchRun, batchDo, batchInsertJob, Store.Batch,
          show (opp.insert == opp.insertUnique) = false from rfl,
          insert_nocb_present s (GoKey.int n) v w false hGet] at hrun
        rw [← hrun]
        exact kvStore_mem_key s.data (GoKey.int n) v
    refine ⟨keyMapLoop_none_of_bad_key b1.store.data (GoKey.int n) hmem hbad, ?_⟩
    have hloop := flushLoop_none_of_bad_key (b1.store.data.map Prod.fst) b1.store
      (GoKey.int n) hmem hbad
    simp [Store.Flush, hloop]

/-- Witness for C10: the all-string store `c3s0` passes every assertion, and
after a batch inserts the integer key 5, `GetKeyMap` and `Flush` panic. -/
theorem claim_C10_type_assertions_witness :
    (c3s0.GetKeyMap).isSome = true ∧ (c3s0.Flush).isSome = true ∧
    (c3s0.Remove (GoKey.int 5)).isSome = true ∧
    c10bad.store.GetKeyMap = none ∧ c10bad.store.Flush = none :=
  ⟨(claim_C10_type_assertions.1 c3s0 (by decide)).1,
   (claim_C10_type_assertions.1 c3s0 (by decide)).2.1,
   (claim_C10_type_assertions.1 c3s0 (by decide)).2.2 (GoKey.int 5),
   (claim_C10_type_assertions.2 c3s0 5 (GoVal.int 9) c10bad (by decide)).1,
   (claim_C10_type_assertions.2 c3s0 5 (GoVal.int 9) c10bad (by decide)).2⟩

end AtomicStore
